import Mathlib

/-!
Verification of the PSI (Population Stability Index) computation in `src/psi.py`.

The single source function `calculate_psi(actual_data, new_data, bins)` is embedded
shallowly:

* numeric data is modelled as `List ℚ` (exact arithmetic in place of IEEE floats);
* the numeric path of `calculate_psi` (lines 48-66) is `calculate_psi` below,
  split into the computable density pipeline `psiDensities` (lines 48-60) and the
  final divergence sum (lines 63-66);
* `np.ndarray.min` / `np.ndarray.max` (which raise on empty arrays) are `npMin` /
  `npMax`, returning `Except`;
* `np.histogram(data, bins, range)` is `npHistogram`: it rejects a non-positive
  bin count, widens a degenerate (zero-width) range by 1/2 on each side exactly as
  numpy's `_get_outer_edges` does, uses `bins` equal-width bins over the range,
  drops values outside the range, and puts a value equal to the upper edge into
  the last bin (half-open bins, last bin closed);
* the categorical branch (lines 37-45) is `calculate_psiCat`: `np.unique` with
  `return_inverse=True` on the concatenation is modelled by sorting the
  deduplicated values (`npUnique`) and indexing with `List.indexOf`; the
  `warnings.warn` side effect is modelled by returning the list of emitted
  warnings next to the result.
-/

/-- Model of `np.ndarray.min()`: minimum of the elements; numpy raises a `ValueError` on an
empty array (`zero-size array to reduction operation`). -/
def npMin : List ℚ → Except String ℚ
  | [] => .error "zero-size array to reduction operation minimum which has no identity"
  | x :: xs => .ok (xs.foldl min x)

/-- Model of `np.ndarray.max()`: maximum of the elements; errors on an empty array. -/
def npMax : List ℚ → Except String ℚ
  | [] => .error "zero-size array to reduction operation maximum which has no identity"
  | x :: xs => .ok (xs.foldl max x)

/-- numpy `_get_outer_edges`: a zero-width range `(c, c)` is widened to
`(c - 0.5, c + 0.5)`; any other range is kept as given. -/
def histEdges (lo hi : ℚ) : ℚ × ℚ :=
  if lo = hi then (lo - 1/2, hi + 1/2) else (lo, hi)

/-- The bin a value falls into for a histogram of `k` equal-width bins over
`[lo, hi]`: values outside `[lo, hi]` are not counted (`none`); a value equal to
the upper edge `hi` lands in the last bin (index `k - 1`). -/
def binIndex (lo hi : ℚ) (k : ℕ) (x : ℚ) : Option ℕ :=
  if x < lo ∨ hi < x then none
  else some (min (Int.toNat ⌊(x - lo) * k / (hi - lo)⌋) (k - 1))

/-- Model of `np.histogram(data, bins=bins, range=r)[0]`: the list of per-bin counts.
numpy raises a `ValueError` for a non-positive integer bin count and for an
inverted range. -/
def npHistogram (data : List ℚ) (bins : ℤ) (r : ℚ × ℚ) : Except String (List ℕ) :=
  if bins < 1 then .error "`bins` must be positive, when an integer" else
  if r.2 < r.1 then .error "max must be larger than min in range parameter." else
  .ok ((List.range bins.toNat).map fun i =>
    data.countP fun x => binIndex (histEdges r.1 r.2).1 (histEdges r.1 r.2).2 bins.toNat x == some i)

/-- Line 48: `data_range = (min(actual_data.min(), new_data.min()),
max(actual_data.max(), new_data.max()))`. -/
def data_range (actual_data new_data : List ℚ) : Except String (ℚ × ℚ) :=
  match npMin actual_data, npMin new_data, npMax actual_data, npMax new_data with
  | .ok a, .ok b, .ok c, .ok d => .ok (min a b, max c d)
  | .error e, _, _, _ => .error e
  | _, .error e, _, _ => .error e
  | _, _, .error e, _ => .error e
  | _, _, _, .error e => .error e

/-- Lines 55-56: `hist / len(data)`, the per-bin counts as fractions of the
sample size. -/
def normalizeHist (hist : List ℕ) (n : ℕ) : List ℚ := hist.map fun (c : ℕ) => (c : ℚ) / (n : ℚ)

/-- Lines 59-60: `np.where(fractions == 0, 0.0001, fractions)`. -/
def floorZeros (fractions : List ℚ) : List ℚ :=
  fractions.map fun p => if p = 0 then 1/10000 else p

/-- Lines 48-60 of `calculate_psi`: the shared range, the two histograms over
that range, normalization, and the zero floor, producing the two density
vectors fed to the divergence sum. -/
def psiDensities (actual_data new_data : List ℚ) (bins : ℤ) :
    Except String (List ℚ × List ℚ) :=
  match data_range actual_data new_data with
  | .error e => .error e
  | .ok r =>
    match npHistogram actual_data bins r, npHistogram new_data bins r with
    | .ok ah, .ok nh =>
      .ok (floorZeros (normalizeHist ah actual_data.length),
           floorZeros (normalizeHist nh new_data.length))
    | .error e, _ => .error e
    | _, .error e => .error e

/-- Line 63, one bin: `(actual_fractions - new_fractions) * np.log(actual_fractions / new_fractions)`. -/
noncomputable def psiTerm (p q : ℚ) : ℝ :=
  ((p : ℝ) - (q : ℝ)) * Real.log ((p : ℝ) / (q : ℝ))

/-- The function `calculate_psi` on numeric data (the branch where the dtype test on line 37
is false): lines 48-66 of `src/psi.py`. -/
noncomputable def calculate_psi (actual_data new_data : List ℚ) (bins : ℤ) :
    Except String ℝ :=
  match psiDensities actual_data new_data bins with
  | .error e => .error e
  | .ok (p, q) => .ok (List.zipWith psiTerm p q).sum

/-! ### The categorical branch (lines 37-45) -/

/-- Strict lexicographic order on lists of characters, the order `np.unique`
sorts string values by. -/
def lexLt : List Char → List Char → Bool
  | [], [] => false
  | [], _ :: _ => true
  | _ :: _, [] => false
  | a :: as, b :: bs => if a < b then true else if b < a then false else lexLt as bs

/-- Strict lexicographic order on strings. -/
def strLt (a b : String) : Bool := lexLt a.data b.data

/-- Insert a string into a (sorted) list, before the first element it does not
strictly exceed. -/
def insertStr (v : String) : List String → List String
  | [] => [v]
  | x :: xs => if strLt x v then x :: insertStr v xs else v :: x :: xs

/-- Insertion sort by `strLt`. -/
def sortStr : List String → List String
  | [] => []
  | x :: xs => insertStr x (sortStr xs)

/-- Model of `np.unique(combined_data)`: the distinct values, in ascending order. -/
def npUnique (l : List String) : List String := sortStr l.dedup

/-- Line 39, the `return_inverse=True` component of `np.unique`: each element of
the concatenation `actual_data ++ new_data`, replaced by the index of its value
in the sorted distinct-value list. -/
def encodedCombined (actual_data new_data : List String) : List ℚ :=
  (actual_data ++ new_data).map fun v =>
    ((npUnique (actual_data ++ new_data)).indexOf v : ℚ)

/-- Line 41: `encoded_data[:len(actual_data)]`. -/
def encodedActual (actual_data new_data : List String) : List ℚ :=
  (encodedCombined actual_data new_data).take actual_data.length

/-- Line 42: `encoded_data[len(actual_data):]`. -/
def encodedNew (actual_data new_data : List String) : List ℚ :=
  (encodedCombined actual_data new_data).drop actual_data.length

/-- Line 43: `bins = len(unique_categories)`. -/
def catBinCount (actual_data new_data : List String) : ℕ :=
  (npUnique (actual_data ++ new_data)).length

/-- The function `calculate_psi` on categorical data (the branch where the dtype test on
line 37 is true): the caller-supplied `bins` is shadowed by the number of
distinct categories, a warning is emitted (returned here as the first
component), and the numeric pipeline runs on the encoded samples. -/
noncomputable def calculate_psiCat (actual_data new_data : List String) (bins : ℤ) :
    List String × Except String ℝ :=
  (["Categorical features detected; ignoring provided bins value and using the number of unique categories instead."],
   calculate_psi (encodedActual actual_data new_data) (encodedNew actual_data new_data)
     (catBinCount actual_data new_data))

/-! ### Helper lemmas: folded minima and maxima -/

lemma foldlMin_le_init (xs : List ℚ) : ∀ x : ℚ, xs.foldl min x ≤ x := by
  induction xs with
  | nil => intro x; exact le_refl x
  | cons y ys ih =>
    intro x
    exact le_trans (ih (min x y)) (min_le_left x y)

lemma foldlMin_le (xs : List ℚ) : ∀ x z : ℚ, z ∈ x :: xs → xs.foldl min x ≤ z := by
  induction xs with
  | nil =>
    intro x z hz
    rcases List.mem_singleton.mp hz with rfl
    exact le_refl z
  | cons y ys ih =>
    intro x z hz
    rcases List.mem_cons.mp hz with rfl | hz'
    · exact le_trans (foldlMin_le_init ys (min z y)) (min_le_left z y)
    · rcases List.mem_cons.mp hz' with rfl | hz''
      · exact le_trans (foldlMin_le_init ys (min x z)) (min_le_right x z)
      · exact ih (min x y) z (List.mem_cons_of_mem _ hz'')

lemma init_le_foldlMax (xs : List ℚ) : ∀ x : ℚ, x ≤ xs.foldl max x := by
  induction xs with
  | nil => intro x; exact le_refl x
  | cons y ys ih =>
    intro x
    exact le_trans (le_max_left x y) (ih (max x y))

lemma le_foldlMax (xs : List ℚ) : ∀ x z : ℚ, z ∈ x :: xs → z ≤ xs.foldl max x := by
  induction xs with
  | nil =>
    intro x z hz
    rcases List.mem_singleton.mp hz with rfl
    exact le_refl z
  | cons y ys ih =>
    intro x z hz
    rcases List.mem_cons.mp hz with rfl | hz'
    · exact le_trans (le_max_left z y) (init_le_foldlMax ys (max z y))
    · rcases List.mem_cons.mp hz' with rfl | hz''
      · exact le_trans (le_max_right x z) (init_le_foldlMax ys (max x z))
      · exact ih (max x y) z (List.mem_cons_of_mem _ hz'')

lemma foldlMin_mem (xs : List ℚ) : ∀ x : ℚ, xs.foldl min x ∈ x :: xs := by
  induction xs with
  | nil => intro x; exact List.mem_singleton.mpr rfl
  | cons y ys ih =>
    intro x
    have h := ih (min x y)
    simp only [List.foldl_cons]
    rcases List.mem_cons.mp h with h' | h'
    · rw [h']
      rcases min_choice x y with hc | hc <;> rw [hc]
      · exact List.mem_cons_self _ _
      · exact List.mem_cons_of_mem _ (List.mem_cons_self _ _)
    · exact List.mem_cons_of_mem _ (List.mem_cons_of_mem _ h')

lemma foldlMax_mem (xs : List ℚ) : ∀ x : ℚ, xs.foldl max x ∈ x :: xs := by
  induction xs with
  | nil => intro x; exact List.mem_singleton.mpr rfl
  | cons y ys ih =>
    intro x
    have h := ih (max x y)
    simp only [List.foldl_cons]
    rcases List.mem_cons.mp h with h' | h'
    · rw [h']
      rcases max_choice x y with hc | hc <;> rw [hc]
      · exact List.mem_cons_self _ _
      · exact List.mem_cons_of_mem _ (List.mem_cons_self _ _)
    · exact List.mem_cons_of_mem _ (List.mem_cons_of_mem _ h')

/-! ### Helper lemmas: histogram edges and bin membership -/

lemma histEdges_spec (lo hi : ℚ) :
    (histEdges lo hi).1 ≤ lo ∧ hi ≤ (histEdges lo hi).2 := by
  by_cases hE : lo = hi
  · rw [histEdges, if_pos hE]
    subst hE
    constructor <;> linarith
  · rw [histEdges, if_neg hE]
    exact ⟨le_refl lo, le_refl hi⟩

lemma binIndex_some (lo hi x : ℚ) (k : ℕ) (h1 : lo ≤ x) (h2 : x ≤ hi) (hk : 0 < k) :
    ∃ j, j < k ∧ binIndex lo hi k x = some j := by
  refine ⟨min (Int.toNat ⌊(x - lo) * k / (hi - lo)⌋) (k - 1), ?_, ?_⟩
  · exact lt_of_le_of_lt (min_le_right _ _) (Nat.sub_lt hk Nat.one_pos)
  · unfold binIndex
    rw [if_neg]
    push_neg
    exact ⟨h1, h2⟩

/-! ### Helper lemmas: counting values over the bins -/

lemma sum_map_add_nat {α : Type} (l : List α) (f g : α → ℕ) :
    (l.map fun i => f i + g i).sum = (l.map f).sum + (l.map g).sum := by
  induction l with
  | nil => rfl
  | cons a l ih => simp [ih]; omega

lemma sum_indicator_range (k j : ℕ) (hj : j < k) :
    ((List.range k).map fun i => if j = i then 1 else 0).sum = 1 := by
  induction k with
  | zero => omega
  | succ k ih =>
    rw [List.range_succ, List.map_append, List.sum_append]
    rcases Nat.lt_or_ge j k with hlt | hge
    · rw [ih hlt]
      have : j ≠ k := Nat.ne_of_lt hlt
      simp [this]
    · have hj' : j = k := Nat.le_antisymm (Nat.lt_succ_iff.mp hj) hge
      subst hj'
      have hz : ((List.range j).map fun i => if j = i then 1 else 0).sum = 0 := by
        apply List.sum_eq_zero
        intro t ht
        rcases List.mem_map.mp ht with ⟨i, hi, rfl⟩
        have hik : i < j := List.mem_range.mp hi
        have hne : j ≠ i := by omega
        simp [hne]
      simp [hz]

lemma hist_counts_total (f : ℚ → Option ℕ) (k : ℕ) (l : List ℚ)
    (h : ∀ x ∈ l, ∃ j, j < k ∧ f x = some j) :
    ((List.range k).map fun i => l.countP fun x => f x == some i).sum = l.length := by
  induction l with
  | nil => simp [List.countP_nil]
  | cons a l ih =>
    have ha := h a (List.mem_cons_self a l)
    rcases ha with ⟨j, hjk, hfa⟩
    have hrest : ∀ x ∈ l, ∃ j, j < k ∧ f x = some j :=
      fun x hx => h x (List.mem_cons_of_mem a hx)
    simp only [List.countP_cons]
    rw [sum_map_add_nat, ih hrest]
    have hind : ((List.range k).map fun i => if (f a == some i) = true then 1 else 0).sum = 1 := by
      have heq : ((List.range k).map fun i => if (f a == some i) = true then 1 else 0)
          = (List.range k).map fun i => if j = i then 1 else 0 := by
        apply List.map_congr_left
        intro i _
        rw [hfa]
        by_cases hji : j = i
        · simp [hji]
        · simp [hji]
      rw [heq]
      exact sum_indicator_range k j hjk
    rw [hind]
    simp

/-! ### Helper lemmas: inverting the pipeline steps -/

lemma npHistogram_ok (data : List ℚ) (bins : ℤ) (lo hi : ℚ)
    (hb : 1 ≤ bins) (hr : lo ≤ hi) :
    npHistogram data bins (lo, hi) = .ok ((List.range bins.toNat).map fun i =>
      data.countP fun x =>
        binIndex (histEdges lo hi).1 (histEdges lo hi).2 bins.toNat x == some i) := by
  rw [npHistogram, if_neg (not_lt.mpr hb)]
  rw [if_neg (show ¬(((lo, hi) : ℚ × ℚ).2 < ((lo, hi) : ℚ × ℚ).1) from not_lt.mpr hr)]

lemma npHistogram_ok_inv {data : List ℚ} {bins : ℤ} {r : ℚ × ℚ} {h : List ℕ}
    (hh : npHistogram data bins r = .ok h) :
    1 ≤ bins ∧ r.1 ≤ r.2 ∧
      h = (List.range bins.toNat).map (fun i =>
        data.countP fun x =>
          binIndex (histEdges r.1 r.2).1 (histEdges r.1 r.2).2 bins.toNat x == some i) := by
  by_cases hb : bins < 1
  · rw [npHistogram, if_pos hb] at hh
    exact absurd hh (by simp)
  · by_cases hr : r.2 < r.1
    · rw [npHistogram, if_neg hb, if_pos hr] at hh
      exact absurd hh (by simp)
    · rw [npHistogram, if_neg hb, if_neg hr] at hh
      exact ⟨not_lt.mp hb, not_lt.mp hr, (Except.ok.injEq _ _ ▸ hh).symm⟩

lemma npHistogram_sum {data : List ℚ} {bins : ℤ} {r : ℚ × ℚ} {h : List ℕ}
    (hh : npHistogram data bins r = .ok h)
    (hin : ∀ x ∈ data, r.1 ≤ x ∧ x ≤ r.2) : h.sum = data.length := by
  obtain ⟨hb, hr, rfl⟩ := npHistogram_ok_inv hh
  obtain ⟨he1, he2⟩ := histEdges_spec r.1 r.2
  have hk : 0 < bins.toNat := by omega
  apply hist_counts_total
  intro x hx
  exact binIndex_some _ _ x _ (le_trans he1 (hin x hx).1) (le_trans (hin x hx).2 he2) hk

lemma data_range_ok_inv {a b : List ℚ} {r : ℚ × ℚ} (h : data_range a b = .ok r) :
    (∀ x ∈ a, r.1 ≤ x ∧ x ≤ r.2) ∧ (∀ x ∈ b, r.1 ≤ x ∧ x ≤ r.2) ∧
      r.1 ≤ r.2 ∧ a ≠ [] ∧ b ≠ [] := by
  match a, b with
  | [], _ => exact absurd h (by simp [data_range, npMin])
  | x :: xs, [] => exact absurd h (by simp [data_range, npMin, npMax])
  | x :: xs, y :: ys =>
    have hr : r = (min (xs.foldl min x) (ys.foldl min y),
        max (xs.foldl max x) (ys.foldl max y)) := by
      simp only [data_range, npMin, npMax] at h
      exact (Except.ok.injEq _ _ ▸ h).symm
    subst hr
    refine ⟨?_, ?_, ?_, by simp, by simp⟩
    · intro z hz
      constructor
      · exact le_trans (min_le_left _ _) (foldlMin_le xs x z hz)
      · exact le_trans (le_foldlMax xs x z hz) (le_max_left _ _)
    · intro z hz
      constructor
      · exact le_trans (min_le_right _ _) (foldlMin_le ys y z hz)
      · exact le_trans (le_foldlMax ys y z hz) (le_max_right _ _)
    · have h1 : min (xs.foldl min x) (ys.foldl min y) ≤ x :=
        le_trans (min_le_left _ _) (foldlMin_le xs x x (List.mem_cons_self x xs))
      have h2 : x ≤ max (xs.foldl max x) (ys.foldl max y) :=
        le_trans (le_foldlMax xs x x (List.mem_cons_self x xs)) (le_max_left _ _)
      exact le_trans h1 h2

lemma psiDensities_ok_inv {a b : List ℚ} {k : ℤ} {p q : List ℚ}
    (h : psiDensities a b k = .ok (p, q)) :
    ∃ r ah nh,
      data_range a b = .ok r ∧
      npHistogram a k r = .ok ah ∧
      npHistogram b k r = .ok nh ∧
      p = floorZeros (normalizeHist ah a.length) ∧
      q = floorZeros (normalizeHist nh b.length) := by
  rw [psiDensities] at h
  cases hr : data_range a b with
  | error e => rw [hr] at h; simp at h
  | ok r =>
    rw [hr] at h
    simp only at h
    cases hha : npHistogram a k r with
    | error e => rw [hha] at h; simp at h
    | ok ah =>
      rw [hha] at h
      cases hhb : npHistogram b k r with
      | error e => rw [hhb] at h; simp at h
      | ok nh =>
        rw [hhb] at h
        simp only at h
        injection h with h'
        rw [Prod.mk.injEq] at h'
        exact ⟨r, ah, nh, rfl, hha, hhb, h'.1.symm, h'.2.symm⟩

/-! ### Helper lemmas: the density vectors -/

lemma sum_map_div (l : List ℕ) (n : ℚ) :
    (l.map fun (c : ℕ) => (c : ℚ) / n).sum = ((l.sum : ℕ) : ℚ) / n := by
  induction l with
  | nil => simp
  | cons c l ih =>
    simp only [List.map_cons, List.sum_cons, Nat.cast_add, add_div, ih]

lemma normalizeHist_sum {hist : List ℕ} {n : ℕ} (hn : n ≠ 0) (hs : hist.sum = n) :
    (normalizeHist hist n).sum = 1 := by
  rw [normalizeHist, sum_map_div, hs]
  exact div_self (Nat.cast_ne_zero.mpr hn)

lemma normalizeHist_nonneg {hist : List ℕ} {n : ℕ} :
    ∀ t ∈ normalizeHist hist n, 0 ≤ t := by
  intro t ht
  rcases List.mem_map.mp ht with ⟨c, hc, rfl⟩
  exact div_nonneg (Nat.cast_nonneg c) (Nat.cast_nonneg n)

lemma floorZeros_pos {l : List ℚ} (h : ∀ t ∈ l, 0 ≤ t) :
    ∀ p ∈ floorZeros l, 0 < p := by
  intro p hp
  rcases List.mem_map.mp hp with ⟨t, ht, rfl⟩
  by_cases h0 : t = 0
  · rw [if_pos h0]; norm_num
  · rw [if_neg h0]
    exact lt_of_le_of_ne (h t ht) (Ne.symm h0)

lemma densities_pos {a b : List ℚ} {k : ℤ} {p q : List ℚ}
    (h : psiDensities a b k = .ok (p, q)) :
    (∀ t ∈ p, 0 < t) ∧ (∀ t ∈ q, 0 < t) := by
  obtain ⟨r, ah, nh, _, _, _, rfl, rfl⟩ := psiDensities_ok_inv h
  exact ⟨floorZeros_pos normalizeHist_nonneg, floorZeros_pos normalizeHist_nonneg⟩

lemma densities_length {a b : List ℚ} {k : ℤ} {p q : List ℚ}
    (h : psiDensities a b k = .ok (p, q)) :
    p.length = k.toNat ∧ q.length = k.toNat := by
  obtain ⟨r, ah, nh, _, hha, hhb, rfl, rfl⟩ := psiDensities_ok_inv h
  obtain ⟨_, _, rfl⟩ := npHistogram_ok_inv hha
  obtain ⟨_, _, rfl⟩ := npHistogram_ok_inv hhb
  simp [floorZeros, normalizeHist, List.length_map, List.length_range]

/-! ### Helper lemmas: the divergence sum -/

lemma psiTerm_self (p : ℚ) : psiTerm p p = 0 := by
  rw [psiTerm, sub_self, zero_mul]

lemma psiTerm_nonneg {p q : ℚ} (hp : 0 < p) (hq : 0 < q) : 0 ≤ psiTerm p q := by
  rw [psiTerm]
  have hp' : (0 : ℝ) < (p : ℝ) := by exact_mod_cast hp
  have hq' : (0 : ℝ) < (q : ℝ) := by exact_mod_cast hq
  rcases le_total (q : ℝ) (p : ℝ) with hle | hle
  · apply mul_nonneg (sub_nonneg.mpr hle)
    exact Real.log_nonneg ((one_le_div hq').mpr hle)
  · have h1 : (p : ℝ) - (q : ℝ) ≤ 0 := sub_nonpos.mpr hle
    have h2 : Real.log ((p : ℝ) / (q : ℝ)) ≤ 0 :=
      Real.log_nonpos (le_of_lt (div_pos hp' hq')) ((div_le_one hq').mpr hle)
    have := mul_nonneg (neg_nonneg.mpr h1) (neg_nonneg.mpr h2)
    rwa [neg_mul_neg] at this

lemma zipWith_psiTerm_self_sum (p : List ℚ) : (List.zipWith psiTerm p p).sum = 0 := by
  induction p with
  | nil => rfl
  | cons t p ih => simp [psiTerm_self, ih]

lemma mem_zipWith_psiTerm : ∀ (p q : List ℚ) (x : ℝ),
    x ∈ List.zipWith psiTerm p q → ∃ u ∈ p, ∃ v ∈ q, x = psiTerm u v := by
  intro p
  induction p with
  | nil => intro q x hx; simp at hx
  | cons u p ih =>
    intro q x hx
    cases q with
    | nil => simp at hx
    | cons v q =>
      rcases List.mem_cons.mp hx with rfl | hx'
      · exact ⟨u, List.mem_cons_self _ _, v, List.mem_cons_self _ _, rfl⟩
      · rcases ih q x hx' with ⟨u', hu', v', hv', rfl⟩
        exact ⟨u', List.mem_cons_of_mem _ hu', v', List.mem_cons_of_mem _ hv', rfl⟩

lemma zipWith_sum_eq_range : ∀ (p q : List ℚ), p.length = q.length →
    (List.zipWith psiTerm p q).sum
      = ∑ i ∈ Finset.range p.length, psiTerm (p.getD i 0) (q.getD i 0) := by
  intro p
  induction p with
  | nil => intro q _; simp
  | cons u p ih =>
    intro q hlen
    cases q with
    | nil => simp at hlen
    | cons v q =>
      have hlen' : p.length = q.length := by simpa using hlen
      simp only [List.zipWith_cons_cons, List.sum_cons, List.length_cons]
      rw [Finset.sum_range_succ', ih q hlen']
      simp [add_comm]

/-! ### Helper lemmas: constant (degenerate-range) inputs -/

lemma countP_replicate {α : Type} (p : α → Bool) (n : ℕ) (c : α) :
    (List.replicate n c).countP p = if p c then n else 0 := by
  induction n with
  | zero => simp [List.countP_nil]
  | succ n ih =>
    rw [List.replicate_succ, List.countP_cons, ih]
    by_cases h : p c <;> simp [h]

lemma foldl_min_replicate (c : ℚ) (n : ℕ) : (List.replicate n c).foldl min c = c := by
  induction n with
  | zero => rfl
  | succ n ih => rw [List.replicate_succ, List.foldl_cons, min_self]; exact ih

lemma foldl_max_replicate (c : ℚ) (n : ℕ) : (List.replicate n c).foldl max c = c := by
  induction n with
  | zero => rfl
  | succ n ih => rw [List.replicate_succ, List.foldl_cons, max_self]; exact ih

lemma constant_densities (c : ℚ) (kt : ℕ) (e1 e2 : ℚ) (n : ℕ) (hn : n ≠ 0) :
    floorZeros (normalizeHist ((List.range kt).map fun i =>
        (List.replicate n c).countP fun v => binIndex e1 e2 kt v == some i) n)
      = (List.range kt).map fun i =>
          if (binIndex e1 e2 kt c == some i : Bool) then (1 : ℚ) else 1/10000 := by
  rw [normalizeHist, floorZeros, List.map_map, List.map_map]
  apply List.map_congr_left
  intro i _
  simp only [Function.comp]
  rw [countP_replicate]
  by_cases h : (binIndex e1 e2 kt c == some i : Bool)
  · rw [if_pos h, if_pos h]
    have hdiv : ((n : ℕ) : ℚ) / ((n : ℕ) : ℚ) = 1 := div_self (Nat.cast_ne_zero.mpr hn)
    rw [hdiv]
    norm_num
  · rw [if_neg h, if_neg h]
    norm_num

/-! ### Claim theorems: the numeric path -/

/-- C1: in the numeric path both histograms are computed over one shared range,
`(min(min(baseline), min(comparison)), max(max(baseline), max(comparison)))`
(a lower bound of every element of both samples and an upper bound of every
element of both samples), with the same `bins` equal-width bins; and for
baseline `[0,1,2,3,4]` and comparison `[10,11,12,13,14]` that shared range is
`(0, 14)`. -/
theorem psi_shared_range (x y : ℚ) (xs ys : List ℚ) (k : ℤ) :
    data_range (x :: xs) (y :: ys)
      = .ok (min (xs.foldl min x) (ys.foldl min y), max (xs.foldl max x) (ys.foldl max y))
  ∧ (∀ z ∈ x :: xs, min (xs.foldl min x) (ys.foldl min y) ≤ z)
  ∧ (∀ z ∈ y :: ys, min (xs.foldl min x) (ys.foldl min y) ≤ z)
  ∧ (∀ z ∈ x :: xs, z ≤ max (xs.foldl max x) (ys.foldl max y))
  ∧ (∀ z ∈ y :: ys, z ≤ max (xs.foldl max x) (ys.foldl max y))
  ∧ psiDensities (x :: xs) (y :: ys) k
      = (match npHistogram (x :: xs) k (min (xs.foldl min x) (ys.foldl min y),
              max (xs.foldl max x) (ys.foldl max y)),
            npHistogram (y :: ys) k (min (xs.foldl min x) (ys.foldl min y),
              max (xs.foldl max x) (ys.foldl max y)) with
        | .ok ah, .ok nh =>
            .ok (floorZeros (normalizeHist ah (x :: xs).length),
                 floorZeros (normalizeHist nh (y :: ys).length))
        | .error e, _ => .error e
        | _, .error e => .error e)
  ∧ data_range [0, 1, 2, 3, 4] [10, 11, 12, 13, 14] = .ok (0, 14) := by
  have hd : data_range (x :: xs) (y :: ys)
      = .ok (min (xs.foldl min x) (ys.foldl min y),
             max (xs.foldl max x) (ys.foldl max y)) := by
    simp [data_range, npMin, npMax]
  refine ⟨hd, ?_, ?_, ?_, ?_, ?_, ?_⟩
  · intro z hz; exact le_trans (min_le_left _ _) (foldlMin_le xs x z hz)
  · intro z hz; exact le_trans (min_le_right _ _) (foldlMin_le ys y z hz)
  · intro z hz; exact le_trans (le_foldlMax xs x z hz) (le_max_left _ _)
  · intro z hz; exact le_trans (le_foldlMax ys y z hz) (le_max_right _ _)
  · rw [psiDensities, hd]
  · simp [data_range, npMin, npMax, min_def, max_def]
    norm_num

/-- C2: whenever the density pipeline produces the floored density vectors
`p, q`, the returned PSI value is exactly the sum over all `bins` bins of
`(p i - q i) * ln (p i / q i)` on those vectors — nothing further is applied
to the sum. -/
theorem psi_sum_formula (a b : List ℚ) (k : ℤ) (p q : List ℚ)
    (h : psiDensities a b k = .ok (p, q)) :
    calculate_psi a b k
      = .ok (∑ i ∈ Finset.range k.toNat, psiTerm (p.getD i 0) (q.getD i 0)) := by
  obtain ⟨hp, hq⟩ := densities_length h
  rw [calculate_psi, h]
  simp only
  rw [zipWith_sum_eq_range p q (hp.trans hq.symm), hp]

/-- C4: after normalization every density entry equal to `0` is replaced by
`0.0001`, independently in each of the two vectors (each vector is the image of
a non-negative raw vector under that replacement); hence all density entries
are strictly positive and the function returns a (finite) real value. -/
theorem psi_zero_floor (a b : List ℚ) (k : ℤ) (p q : List ℚ)
    (h : psiDensities a b k = .ok (p, q)) :
    (∃ rawp : List ℚ, p = rawp.map (fun t => if t = 0 then 1/10000 else t) ∧ ∀ t ∈ rawp, 0 ≤ t)
  ∧ (∃ rawq : List ℚ, q = rawq.map (fun t => if t = 0 then 1/10000 else t) ∧ ∀ t ∈ rawq, 0 ≤ t)
  ∧ (∀ t ∈ p, 0 < t) ∧ (∀ t ∈ q, 0 < t)
  ∧ ∃ v : ℝ, calculate_psi a b k = .ok v := by
  obtain ⟨hp, hq⟩ := densities_pos h
  obtain ⟨r, ah, nh, _, _, _, hpe, hqe⟩ := psiDensities_ok_inv h
  refine ⟨⟨normalizeHist ah a.length, hpe, normalizeHist_nonneg⟩,
          ⟨normalizeHist nh b.length, hqe, normalizeHist_nonneg⟩, hp, hq,
          (List.zipWith psiTerm p q).sum, ?_⟩
  rw [calculate_psi, h]

/-- C5: on any non-empty numeric sample compared against itself, with any
positive bin count, the computed PSI is exactly `0`. -/
theorem psi_identity (x : ℚ) (xs : List ℚ) (k : ℤ) (hk : 1 ≤ k) :
    calculate_psi (x :: xs) (x :: xs) k = .ok 0 := by
  have hmem := List.mem_cons_self x xs
  have hrle : xs.foldl min x ≤ xs.foldl max x :=
    le_trans (foldlMin_le xs x x hmem) (le_foldlMax xs x x hmem)
  have hd : data_range (x :: xs) (x :: xs) = .ok (xs.foldl min x, xs.foldl max x) := by
    simp [data_range, npMin, npMax]
  have hh := npHistogram_ok (x :: xs) k (xs.foldl min x) (xs.foldl max x) hk hrle
  have hpd : psiDensities (x :: xs) (x :: xs) k
      = .ok (floorZeros (normalizeHist ((List.range k.toNat).map fun i =>
            (x :: xs).countP fun v =>
              binIndex (histEdges (xs.foldl min x) (xs.foldl max x)).1
                (histEdges (xs.foldl min x) (xs.foldl max x)).2 k.toNat v == some i)
            (x :: xs).length),
          floorZeros (normalizeHist ((List.range k.toNat).map fun i =>
            (x :: xs).countP fun v =>
              binIndex (histEdges (xs.foldl min x) (xs.foldl max x)).1
                (histEdges (xs.foldl min x) (xs.foldl max x)).2 k.toNat v == some i)
            (x :: xs).length)) := by
    rw [psiDensities, hd]
    simp only
    rw [hh]
  rw [calculate_psi, hpd]
  simp only [zipWith_psiTerm_self_sum]

/-- C6: every successfully returned PSI value is non-negative; each per-bin
term `(p - q) * ln (p / q)` is non-negative for positive densities `p, q` and
is exactly `0` when the densities agree. -/
theorem psi_nonneg :
    (∀ (a b : List ℚ) (k : ℤ) (v : ℝ), calculate_psi a b k = .ok v → 0 ≤ v)
  ∧ (∀ p q : ℚ, 0 < p → 0 < q → 0 ≤ psiTerm p q)
  ∧ (∀ p : ℚ, psiTerm p p = 0) := by
  refine ⟨?_, fun p q hp hq => psiTerm_nonneg hp hq, psiTerm_self⟩
  intro a b k v hv
  rw [calculate_psi] at hv
  cases hpd : psiDensities a b k with
  | error e => rw [hpd] at hv; simp at hv
  | ok pq =>
    obtain ⟨p, q⟩ := pq
    rw [hpd] at hv
    simp only at hv
    injection hv with hv'
    subst hv'
    obtain ⟨hp, hq⟩ := densities_pos hpd
    apply List.sum_nonneg
    intro t ht
    obtain ⟨u, hu, w, hw, rfl⟩ := mem_zipWith_psiTerm p q t ht
    exact psiTerm_nonneg (hp u hu) (hq w hw)

/-- C7: whenever the divergence step is reached, the two density vectors have
equal length — the bin count used — and come from two histograms computed with
the same bin boundaries (the same range `r`); and each raw (pre-floor)
normalized vector sums to exactly `1`. -/
theorem psi_density_invariants (a b : List ℚ) (k : ℤ) (p q : List ℚ)
    (h : psiDensities a b k = .ok (p, q)) :
    ∃ r ah nh,
      data_range a b = .ok r
      ∧ npHistogram a k r = .ok ah
      ∧ npHistogram b k r = .ok nh
      ∧ p = floorZeros (normalizeHist ah a.length)
      ∧ q = floorZeros (normalizeHist nh b.length)
      ∧ p.length = k.toNat
      ∧ q.length = k.toNat
      ∧ (normalizeHist ah a.length).sum = 1
      ∧ (normalizeHist nh b.length).sum = 1 := by
  obtain ⟨r, ah, nh, hr, hha, hhb, hpe, hqe⟩ := psiDensities_ok_inv h
  obtain ⟨hboundsa, hboundsb, _, hane, hbne⟩ := data_range_ok_inv hr
  obtain ⟨hplen, hqlen⟩ := densities_length h
  have hsa : ah.sum = a.length := npHistogram_sum hha hboundsa
  have hsb : nh.sum = b.length := npHistogram_sum hhb hboundsb
  have hna : a.length ≠ 0 := fun hz => hane (List.length_eq_zero.mp hz)
  have hnb : b.length ≠ 0 := fun hz => hbne (List.length_eq_zero.mp hz)
  exact ⟨r, ah, nh, hr, hha, hhb, hpe, hqe, hplen, hqlen,
    normalizeHist_sum hna hsa, normalizeHist_sum hnb hsb⟩

/-- C9: a non-positive bin count reaching the histogram step makes the call
fail with an error rather than return a value; likewise the categorical path
with zero distinct categories (both samples empty) fails with an error. -/
theorem psi_invalid_bin_count :
    (∀ (a b : List ℚ) (k : ℤ), k < 1 → ∃ e, calculate_psi a b k = .error e)
  ∧ (∀ k : ℤ, ∃ e, (calculate_psiCat [] [] k).2 = .error e) := by
  constructor
  · intro a b k hk
    cases hr : data_range a b with
    | error e =>
      refine ⟨e, ?_⟩
      rw [calculate_psi, psiDensities, hr]
    | ok r =>
      refine ⟨"`bins` must be positive, when an integer", ?_⟩
      rw [calculate_psi, psiDensities, hr]
      simp only
      have hkk : ∀ (data : List ℚ), npHistogram data k r
          = .error "`bins` must be positive, when an integer" :=
        fun data => by rw [npHistogram, if_pos hk]
      rw [hkk a, hkk b]
  · intro k
    exact ⟨"zero-size array to reduction operation minimum which has no identity", rfl⟩

/-- C10: when both samples are non-empty and constant with one and the same
value (a zero-width combined range), no error is raised — numpy widens the
degenerate range — and the PSI returned is exactly `0`, both density vectors
being identical. -/
theorem psi_constant_input (c : ℚ) (n m : ℕ) (k : ℤ)
    (hn : 0 < n) (hm : 0 < m) (hk : 1 ≤ k) :
    calculate_psi (List.replicate n c) (List.replicate m c) k = .ok 0 := by
  obtain ⟨n', rfl⟩ : ∃ n', n = n' + 1 := ⟨n - 1, by omega⟩
  obtain ⟨m', rfl⟩ : ∃ m', m = m' + 1 := ⟨m - 1, by omega⟩
  have hd : data_range (List.replicate (n' + 1) c) (List.replicate (m' + 1) c)
      = .ok (c, c) := by
    simp [data_range, npMin, npMax, List.replicate_succ, foldl_min_replicate,
      foldl_max_replicate]
  have hh1 := npHistogram_ok (List.replicate (n' + 1) c) k c c hk (le_refl c)
  have hh2 := npHistogram_ok (List.replicate (m' + 1) c) k c c hk (le_refl c)
  have hpd : psiDensities (List.replicate (n' + 1) c) (List.replicate (m' + 1) c) k
      = .ok ((List.range k.toNat).map fun i =>
            if (binIndex (histEdges c c).1 (histEdges c c).2 k.toNat c == some i : Bool)
            then (1 : ℚ) else 1/10000,
          (List.range k.toNat).map fun i =>
            if (binIndex (histEdges c c).1 (histEdges c c).2 k.toNat c == some i : Bool)
            then (1 : ℚ) else 1/10000) := by
    rw [psiDensities, hd]
    simp only
    rw [hh1, hh2]
    simp only
    rw [List.length_replicate, List.length_replicate]
    rw [constant_densities c k.toNat (histEdges c c).1 (histEdges c c).2 (n' + 1)
      (Nat.succ_ne_zero n')]
    rw [constant_densities c k.toNat (histEdges c c).1 (histEdges c c).2 (m' + 1)
      (Nat.succ_ne_zero m')]
  rw [calculate_psi, hpd]
  simp only [zipWith_psiTerm_self_sum]

/-! ### Helper lemmas: the lexicographic order on strings -/

lemma lexLt_connex : ∀ a b : List Char, lexLt a b = false → lexLt b a = false → a = b := by
  intro a
  induction a with
  | nil =>
    intro b h1 h2
    cases b with
    | nil => rfl
    | cons c bs => simp [lexLt] at h1
  | cons c as ih =>
    intro b h1 h2
    cases b with
    | nil => simp [lexLt] at h2
    | cons d bs =>
      simp only [lexLt] at h1 h2
      by_cases hcd : c < d
      · simp [hcd] at h1
      · by_cases hdc : d < c
        · simp [hdc, hcd] at h2
        · have hce : c = d := le_antisymm (not_lt.mp hdc) (not_lt.mp hcd)
          subst hce
          simp [lt_irrefl] at h1 h2
          rw [ih bs h1 h2]

lemma lexLt_trans : ∀ a b c : List Char,
    lexLt a b = true → lexLt b c = true → lexLt a c = true := by
  intro a
  induction a with
  | nil =>
    intro b c h1 h2
    cases b with
    | nil => simp [lexLt] at h1
    | cons d bs =>
      cases c with
      | nil => simp [lexLt] at h2
      | cons e cs => simp [lexLt]
  | cons x as ih =>
    intro b c h1 h2
    cases b with
    | nil => simp [lexLt] at h1
    | cons y bs =>
      cases c with
      | nil => simp [lexLt] at h2
      | cons z cs =>
        simp only [lexLt] at h1 h2 ⊢
        by_cases hxy : x < y
        · by_cases hyz : y < z
          · simp [lt_trans hxy hyz]
          · by_cases hzy : z < y
            · simp [hyz, hzy] at h2
            · have hyze : y = z := le_antisymm (not_lt.mp hzy) (not_lt.mp hyz)
              subst hyze
              simp [hxy]
        · by_cases hyx : y < x
          · simp [hxy, hyx] at h1
          · have hxye : x = y := le_antisymm (not_lt.mp hyx) (not_lt.mp hxy)
            subst hxye
            simp [lt_irrefl] at h1
            by_cases hxz : x < z
            · simp [hxz]
            · by_cases hzx : z < x
              · simp [hxz, hzx] at h2
              · have hxze : x = z := le_antisymm (not_lt.mp hzx) (not_lt.mp hxz)
                subst hxze
                simp only [lt_irrefl, if_false] at h2 ⊢
                exact ih bs cs h1 h2

lemma strLt_connex {a b : String} (h1 : strLt a b = false) (h2 : strLt b a = false) :
    a = b := by
  have hd := lexLt_connex a.data b.data h1 h2
  cases a
  cases b
  exact congrArg String.mk hd

lemma strLt_trans {a b c : String} (h1 : strLt a b = true) (h2 : strLt b c = true) :
    strLt a c = true :=
  lexLt_trans a.data b.data c.data h1 h2

/-! ### Helper lemmas: insertion sort of the category values -/

lemma insertStr_perm (v : String) : ∀ l : List String, (insertStr v l).Perm (v :: l) := by
  intro l
  induction l with
  | nil => exact List.Perm.refl _
  | cons x xs ih =>
    rw [insertStr]
    by_cases h : strLt x v = true
    · rw [if_pos h]
      exact (ih.cons x).trans (List.Perm.swap v x xs)
    · rw [if_neg h]

lemma mem_insertStr {z v : String} {l : List String} :
    z ∈ insertStr v l ↔ z = v ∨ z ∈ l :=
  (insertStr_perm v l).mem_iff.trans List.mem_cons

lemma sortStr_perm : ∀ l : List String, (sortStr l).Perm l := by
  intro l
  induction l with
  | nil => exact List.Perm.refl _
  | cons x xs ih => exact (insertStr_perm x (sortStr xs)).trans (ih.cons x)

lemma pairwise_insertStr {v : String} : ∀ {l : List String},
    l.Pairwise (fun u w => strLt u w = true) → (∀ y ∈ l, y ≠ v) →
    (insertStr v l).Pairwise (fun u w => strLt u w = true) := by
  intro l
  induction l with
  | nil =>
    intro _ _
    simp [insertStr]
  | cons x xs ih =>
    intro hp hne
    rw [insertStr]
    rcases List.pairwise_cons.mp hp with ⟨hx, hxs⟩
    by_cases h : strLt x v = true
    · rw [if_pos h]
      apply List.pairwise_cons.mpr
      constructor
      · intro z hz
        rcases mem_insertStr.mp hz with rfl | hz'
        · exact h
        · exact hx z hz'
      · exact ih hxs (fun y hy => hne y (List.mem_cons_of_mem x hy))
    · rw [if_neg h]
      have hxv : strLt x v = false := by
        revert h
        cases strLt x v <;> simp
      have hvx : strLt v x = true := by
        cases hsvx : strLt v x
        · exact absurd (strLt_connex hxv hsvx)
            (hne x (List.mem_cons_self x xs))
        · rfl
      apply List.pairwise_cons.mpr
      refine ⟨?_, hp⟩
      intro z hz
      rcases List.mem_cons.mp hz with rfl | hz'
      · exact hvx
      · exact strLt_trans hvx (hx z hz')

lemma pairwise_sortStr : ∀ l : List String, l.Nodup →
    (sortStr l).Pairwise (fun u w => strLt u w = true) := by
  intro l
  induction l with
  | nil =>
    intro _
    simp [sortStr]
  | cons x xs ih =>
    intro hnd
    rcases List.nodup_cons.mp hnd with ⟨hx, hxs⟩
    rw [sortStr]
    apply pairwise_insertStr (ih hxs)
    intro y hy he
    have hmem : y ∈ xs := (sortStr_perm xs).mem_iff.mp hy
    exact hx (he ▸ hmem)

lemma indexOf_get? : ∀ (l : List String) (v : String), v ∈ l →
    l.get? (l.indexOf v) = some v := by
  intro l
  induction l with
  | nil =>
    intro v hv
    simp at hv
  | cons x xs ih =>
    intro v hv
    rw [List.indexOf_cons]
    by_cases h : (x == v) = true
    · have : x = v := eq_of_beq h
      subst this
      simp [h]
    · have hb : (x == v) = false := by
        revert h
        cases (x == v) <;> simp
      have hv' : v ∈ xs := by
        rcases List.mem_cons.mp hv with rfl | h'
        · simp at hb
        · exact h'
      simp only [hb, cond_false]
      rw [List.get?_cons_succ]
      exact ih v hv'

/-! ### Claim theorems: the categorical branch -/

/-- C3: on categorical input the caller-supplied bin count is discarded (the
result does not depend on it), the warning is emitted while the result is still
computed exactly as the warning-free numeric pipeline on the encoded samples
(the warning never aborts the computation), and the bin count actually used is
the number of distinct values across both sequences; for baseline
`["a","b","a","c"]` and comparison `["a","a","b","b"]` it is `3`. -/
theorem psi_categorical_override (a b : List String) (k k' : ℤ) :
    calculate_psiCat a b k = calculate_psiCat a b k'
  ∧ (calculate_psiCat a b k).1 ≠ []
  ∧ (calculate_psiCat a b k).2
      = calculate_psi (encodedActual a b) (encodedNew a b) (catBinCount a b)
  ∧ catBinCount a b = (a ++ b).toFinset.card
  ∧ catBinCount ["a", "b", "a", "c"] ["a", "a", "b", "b"] = 3 := by
  refine ⟨rfl, by simp [calculate_psiCat], rfl, ?_, ?_⟩
  · rw [catBinCount, npUnique, (sortStr_perm _).length_eq, List.card_toFinset]
  · decide

/-- C8: in categorical mode the concatenation of the two samples is encoded by
mapping each value to the index of its value in the distinct-value list, which
is duplicate-free, contains exactly the values occurring in either sample, is
strictly sorted, and indexing it at a value's index recovers the value; the
encoded combined sequence is split back into a baseline-length prefix and a
comparison-length suffix that are exactly the per-sample encodings in original
order. -/
theorem psi_categorical_encoding (a b : List String) :
    encodedActual a b = a.map (fun v => ((npUnique (a ++ b)).indexOf v : ℚ))
  ∧ encodedNew a b = b.map (fun v => ((npUnique (a ++ b)).indexOf v : ℚ))
  ∧ (∀ v ∈ a ++ b, (npUnique (a ++ b)).get? ((npUnique (a ++ b)).indexOf v) = some v)
  ∧ (npUnique (a ++ b)).Nodup
  ∧ (∀ v, v ∈ npUnique (a ++ b) ↔ v ∈ a ++ b)
  ∧ (npUnique (a ++ b)).Pairwise (fun u w => strLt u w = true) := by
  have hperm : (npUnique (a ++ b)).Perm ((a ++ b).dedup) := sortStr_perm _
  refine ⟨?_, ?_, ?_, ?_, ?_, ?_⟩
  · rw [encodedActual, encodedCombined, List.map_append]
    rw [show a.length = (a.map fun v => ((npUnique (a ++ b)).indexOf v : ℚ)).length from
      (List.length_map a _).symm]
    exact List.take_left _ _
  · rw [encodedNew, encodedCombined, List.map_append]
    rw [show a.length = (a.map fun v => ((npUnique (a ++ b)).indexOf v : ℚ)).length from
      (List.length_map a _).symm]
    exact List.drop_left _ _
  · intro v hv
    exact indexOf_get? _ v (hperm.mem_iff.mpr (List.mem_dedup.mpr hv))
  · exact hperm.nodup_iff.mpr (List.nodup_dedup _)
  · intro v
    rw [hperm.mem_iff, List.mem_dedup]
  · exact pairwise_sortStr _ (List.nodup_dedup _)

/-! ### Witnesses: each claim theorem applied at a concrete input -/

lemma psiDensities_eval_same : psiDensities [0, 1] [0, 1] 2 = .ok ([1/2, 1/2], [1/2, 1/2]) := by
  have h1 : data_range [0, 1] [0, 1] = .ok (0, 1) := by
    simp [data_range, npMin, npMax, min_def, max_def]
    try norm_num
  have h2 : npHistogram [0, 1] 2 (0, 1) = .ok [1, 1] := by
    simp only [npHistogram, histEdges]
    norm_num [List.countP_cons, binIndex]
    try decide
  rw [psiDensities, h1]
  simp only
  rw [h2]
  simp only
  norm_num [floorZeros, normalizeHist]

lemma psiDensities_eval_shift : psiDensities [0, 1] [1, 1] 2 = .ok ([1/2, 1/2], [1/10000, 1]) := by
  have h1 : data_range [0, 1] [1, 1] = .ok (0, 1) := by
    simp [data_range, npMin, npMax, min_def, max_def]
    try norm_num
  have h2 : npHistogram [0, 1] 2 (0, 1) = .ok [1, 1] := by
    simp only [npHistogram, histEdges]
    norm_num [List.countP_cons, binIndex]
    try decide
  have h3 : npHistogram [1, 1] 2 (0, 1) = .ok [0, 2] := by
    simp only [npHistogram, histEdges]
    norm_num [List.countP_cons, binIndex]
    try decide
  rw [psiDensities, h1]
  simp only
  rw [h2, h3]
  simp only
  norm_num [floorZeros, normalizeHist]

lemma calculate_psi_eval_zero : calculate_psi [0] [0] 1 = .ok (List.zipWith psiTerm [1] [1]).sum := by
  have h1 : data_range [0] [0] = .ok (0, 0) := by
    simp [data_range, npMin, npMax]
  have h2 : npHistogram [0] 1 (0, 0) = .ok [1] := by
    simp only [npHistogram, histEdges]
    norm_num [List.countP_cons, binIndex]
    try decide
  have hpd : psiDensities [0] [0] 1 = .ok ([1], [1]) := by
    rw [psiDensities, h1]
    simp only
    rw [h2]
    simp only
    norm_num [floorZeros, normalizeHist]
  rw [calculate_psi, hpd]

/-- Witness for C1 at baseline `[0,1,2,3,4]`, comparison `[10,...,14]`,
`bins = 5`. -/
theorem psi_shared_range_witness :
    data_range [0, 1, 2, 3, 4] [10, 11, 12, 13, 14] = .ok (0, 14)
  ∧ min (([1, 2, 3, 4] : List ℚ).foldl min 0) (([11, 12, 13, 14] : List ℚ).foldl min 10)
      ≤ 3 := by
  have h := psi_shared_range 0 10 [1, 2, 3, 4] [11, 12, 13, 14] 5
  exact ⟨h.2.2.2.2.2.2, h.2.1 3 (by simp)⟩

/-- Witness for C2 at `[0,1]` vs `[0,1]` with 2 bins. -/
theorem psi_sum_formula_witness :
    calculate_psi [0, 1] [0, 1] 2
      = .ok (∑ i ∈ Finset.range (2 : ℤ).toNat,
          psiTerm ([(1:ℚ)/2, 1/2].getD i 0) ([(1:ℚ)/2, 1/2].getD i 0)) :=
  psi_sum_formula [0, 1] [0, 1] 2 [1/2, 1/2] [1/2, 1/2] psiDensities_eval_same

/-- Witness for C4 at `[0,1]` vs `[1,1]` with 2 bins: the comparison sample
has an empty first bin, floored to `1/10000`. -/
theorem psi_zero_floor_witness :
    (∃ rawp : List ℚ, [(1:ℚ)/2, 1/2] = rawp.map (fun t => if t = 0 then 1/10000 else t)
        ∧ ∀ t ∈ rawp, 0 ≤ t)
  ∧ (∃ rawq : List ℚ, [(1:ℚ)/10000, 1] = rawq.map (fun t => if t = 0 then 1/10000 else t)
        ∧ ∀ t ∈ rawq, 0 ≤ t)
  ∧ (∀ t ∈ [(1:ℚ)/2, 1/2], 0 < t) ∧ (∀ t ∈ [(1:ℚ)/10000, 1], 0 < t)
  ∧ ∃ v : ℝ, calculate_psi [0, 1] [1, 1] 2 = .ok v :=
  psi_zero_floor [0, 1] [1, 1] 2 [1/2, 1/2] [1/10000, 1] psiDensities_eval_shift

/-- Witness for C5 at `x = [1, 2]`, 3 bins. -/
theorem psi_identity_witness : calculate_psi [1, 2] [1, 2] 3 = .ok 0 :=
  psi_identity 1 [2] 3 (by decide)

/-- Witness for C6: a returned value that is non-negative, a per-bin term at
`p = 1/2, q = 1/3`, and a per-bin term with equal densities. -/
theorem psi_nonneg_witness :
    0 ≤ (List.zipWith psiTerm [(1:ℚ)] [1]).sum
  ∧ 0 ≤ psiTerm (1/2) (1/3)
  ∧ psiTerm (3/4) (3/4) = 0 :=
  ⟨psi_nonneg.1 [0] [0] 1 _ calculate_psi_eval_zero,
   psi_nonneg.2.1 (1/2) (1/3) (by norm_num) (by norm_num),
   psi_nonneg.2.2 (3/4)⟩

/-- Witness for C7 at `[0,1]` vs `[0,1]` with 2 bins. -/
theorem psi_density_invariants_witness :
    ∃ r ah nh,
      data_range [0, 1] [0, 1] = .ok r
      ∧ npHistogram [0, 1] 2 r = .ok ah
      ∧ npHistogram [0, 1] 2 r = .ok nh
      ∧ [(1:ℚ)/2, 1/2] = floorZeros (normalizeHist ah ([0, 1] : List ℚ).length)
      ∧ [(1:ℚ)/2, 1/2] = floorZeros (normalizeHist nh ([0, 1] : List ℚ).length)
      ∧ ([(1:ℚ)/2, 1/2] : List ℚ).length = (2 : ℤ).toNat
      ∧ ([(1:ℚ)/2, 1/2] : List ℚ).length = (2 : ℤ).toNat
      ∧ (normalizeHist ah ([0, 1] : List ℚ).length).sum = 1
      ∧ (normalizeHist nh ([0, 1] : List ℚ).length).sum = 1 :=
  psi_density_invariants [0, 1] [0, 1] 2 [1/2, 1/2] [1/2, 1/2] psiDensities_eval_same

/-- Witness for C9: bin count `0` on numeric input `[1]` vs `[1]`, and the
empty categorical input. -/
theorem psi_invalid_bin_count_witness :
    (∃ e, calculate_psi [1] [1] 0 = .error e)
  ∧ (∃ e, (calculate_psiCat [] [] 5).2 = .error e) :=
  ⟨psi_invalid_bin_count.1 [1] [1] 0 (by decide), psi_invalid_bin_count.2 5⟩

/-- Witness for C10: two constant samples of the value `5`, of lengths 2 and 3,
with 4 bins. -/
theorem psi_constant_input_witness :
    calculate_psi (List.replicate 2 5) (List.replicate 3 5) 4 = .ok 0 :=
  psi_constant_input 5 2 3 4 (by decide) (by decide) (by decide)

/-- Witness for C3 at baseline `["a"]`, comparison `["b"]`, bin counts 1 and 2,
plus the spec example. -/
theorem psi_categorical_override_witness :
    calculate_psiCat ["a"] ["b"] 1 = calculate_psiCat ["a"] ["b"] 2
  ∧ catBinCount ["a", "b", "a", "c"] ["a", "a", "b", "b"] = 3 :=
  ⟨(psi_categorical_override ["a"] ["b"] 1 2).1,
   (psi_categorical_override ["a"] ["b"] 1 2).2.2.2.2⟩

/-- Witness for C8 at baseline `["b","a"]`, comparison `["a","c"]`. -/
theorem psi_categorical_encoding_witness :
    encodedActual ["b", "a"] ["a", "c"]
      = (["b", "a"] : List String).map
          (fun v => ((npUnique (["b", "a"] ++ ["a", "c"])).indexOf v : ℚ))
  ∧ (npUnique (["b", "a"] ++ ["a", "c"])).get?
        ((npUnique (["b", "a"] ++ ["a", "c"])).indexOf "b") = some "b" :=
  ⟨(psi_categorical_encoding ["b", "a"] ["a", "c"]).1,
   (psi_categorical_encoding ["b", "a"] ["a", "c"]).2.2.1 "b" (by simp)⟩
